import Mathlib

/-!
Verification of the BudouX segmenter core (`src/parser.rs` of `budoux-rs`).

A Rust `&str` is modelled as its sequence of Unicode scalar values, a
`List Char`, together with its UTF-8 byte length `byteLen` where the code
uses `str::len`.  Machine integers (`i64`) are modelled as `Int` — no
arithmetic in the parser can overflow for any table and sentence that fit
in memory — and Rust's truncating signed division `/` is `Int.tdiv`.
-/

namespace BudouX

/-- Embedding of `type Model = HashMap<String, HashMap<String, i64>>`
(models.rs line 4): an association list from feature-group key to an
association list from n-gram (a character sequence) to a signed weight.
A `HashMap` has unique keys; `List.lookup` returns the first binding,
which agrees with `HashMap::get` on any association list with unique
keys. -/
abbrev Model := List (String × List (List Char × Int))

/-- Embedding of `model.values().flat_map(|group| group.values()).sum::<i64>()`
from `Parser::new` (parser.rs line 46). -/
def modelSum (m : Model) : Int :=
  ((m.map Prod.snd).flatMap (fun group => group.map Prod.snd)).sum

/-- Embedding of `struct Parser` (parser.rs lines 32-37). -/
structure Parser where
  model : Model
  base_score : Int

/-- Embedding of `Parser::new` (parser.rs lines 45-50): the base score is
`-((s + 1) / 2)` with Rust's truncating (round-toward-zero) signed
division, i.e. `Int.tdiv`. -/
def Parser.new (model : Model) : Parser :=
  let s := modelSum model
  let base_score := -(Int.tdiv (s + 1) 2)
  { model := model, base_score := base_score }

/-- The UTF-8 byte length of a string: Rust's `str::len`. -/
def byteLen (s : List Char) : Nat :=
  (s.map Char.utf8Size).sum

/-- Embedding of `impl Substring for str` (parser.rs lines 176-185), at the
character level.  The Rust code converts the character indices `start` and
`stop` to byte offsets (an index at or past the character count becomes the
total byte length) and returns the byte slice `&self[start_byte..end_byte]`.
Character byte offsets are strictly increasing, so `start_byte ≤ end_byte`
holds exactly when `min start len ≤ min stop len` (`len` the character
count), and the slice then holds exactly the characters with index in
`[min start len, min stop len)`.  When `start_byte > end_byte` the slice
indexing panics; `none` models that panic. -/
def strSubstring (s : List Char) (start stop : Nat) : Option (List Char) :=
  if min start s.length ≤ min stop s.length then
    some ((s.take (min stop s.length)).drop (min start s.length))
  else
    none

/-- The value `substring` returns whenever it does not panic; every call
the parser actually makes is of this shape (proved below). -/
def substring (s : List Char) (start stop : Nat) : List Char :=
  (strSubstring s start stop).getD []

/-- Embedding of `Parser::get_score` (parser.rs lines 127-129). -/
def Parser.get_score (p : Parser) (key : String) (value : List Char) : Int :=
  ((p.model.lookup key).bind (fun map => map.lookup value)).getD 0

/-- One iteration of the scoring loop of `Parser::parse_boundaries`
(parser.rs lines 93-107).  `usize::saturating_sub` is exactly natural
subtraction; `usize::saturating_add` is plain addition (the clamp at
`usize::MAX` is unreachable for a list index). -/
def Parser.boundaryScore (p : Parser) (s : List Char) (i : Nat) : Int :=
  p.base_score
    + p.get_score ("UW1") (substring s (i - 3) (i - 2))
    + p.get_score ("UW2") (substring s (i - 2) (i - 1))
    + p.get_score ("UW3") (substring s (i - 1) i)
    + p.get_score ("UW4") (substring s i (i + 1))
    + p.get_score ("UW5") (substring s (i + 1) (i + 2))
    + p.get_score ("UW6") (substring s (i + 2) (i + 3))
    + p.get_score ("BW1") (substring s (i - 2) i)
    + p.get_score ("BW2") (substring s (i - 1) (i + 1))
    + p.get_score ("BW3") (substring s i (i + 2))
    + p.get_score ("TW1") (substring s (i - 3) i)
    + p.get_score ("TW2") (substring s (i - 2) (i + 1))
    + p.get_score ("TW3") (substring s (i - 1) (i + 2))
    + p.get_score ("TW4") (substring s i (i + 3))

/-- Embedding of `Parser::parse_boundaries` (parser.rs lines 88-115):
`for i in 1..chars.len()`, pushing `i` whenever the score is positive, is
the filter of the index list `[1, …, chars.len() - 1]`. -/
def Parser.parse_boundaries (p : Parser) (s : List Char) : List Nat :=
  (List.range' 1 (s.length - 1)).filter (fun i => 0 < p.boundaryScore s i)

/-- The chunk loop of `Parser::parse` (parser.rs lines 67-74): one
`substring(start, boundary)` per boundary, then the final
`substring(start, sentence.len())`, whose end index is the byte length. -/
def parseChunks (s : List Char) : Nat → List Nat → List (List Char)
  | start, [] => [substring s start (byteLen s)]
  | start, b :: bs => substring s start b :: parseChunks s b bs

/-- Embedding of `Parser::parse` (parser.rs lines 61-77). -/
def Parser.parse (p : Parser) (s : List Char) : List (List Char) :=
  if s.isEmpty then [] else parseChunks s 0 (p.parse_boundaries s)

/-- The `(start, end)` argument pairs that one iteration of
`parse_boundaries` passes to `substring`, one pair per call site, in source
order (parser.rs lines 95-107). -/
def boundaryRequests (i : Nat) : List (Nat × Nat) :=
  [(i - 3, i - 2), (i - 2, i - 1), (i - 1, i), (i, i + 1), (i + 1, i + 2),
   (i + 2, i + 3), (i - 2, i), (i - 1, i + 1), (i, i + 2), (i - 3, i),
   (i - 2, i + 1), (i - 1, i + 2), (i, i + 3)]

/-- Every `(start, end)` pair a `parse_boundaries` call passes to
`substring`. -/
def parseBoundariesRequests (s : List Char) : List (Nat × Nat) :=
  (List.range' 1 (s.length - 1)).flatMap boundaryRequests

/-- The `(start, end)` pairs the chunk loop of `parse` passes to
`substring` (parser.rs lines 71 and 74). -/
def parseChunkRequests (s : List Char) : Nat → List Nat → List (Nat × Nat)
  | start, [] => [(start, byteLen s)]
  | start, b :: bs => (start, b) :: parseChunkRequests s b bs

/-- Every `(start, end)` pair a `parse` call passes to `substring`,
directly or through `parse_boundaries`. -/
def Parser.parseRequests (p : Parser) (s : List Char) : List (Nat × Nat) :=
  if s.isEmpty then []
  else parseBoundariesRequests s ++ parseChunkRequests s 0 (p.parse_boundaries s)

/-- Modelled from the spec (§3, claim C6): the base score as the negated
mathematical ceiling of half the weight sum, `-⌈S/2⌉`.  For the positive
divisor `2`, `Int.ediv` is floor division and `-⌈S/2⌉ = ⌊(-S)/2⌋`. -/
def specBaseScore (m : Model) : Int :=
  Int.ediv (-(modelSum m)) 2

/-! ### Helper lemmas about `substring` -/

lemma substring_eq_drop_take (s : List Char) (a b : Nat) :
    substring s a b = (s.take b).drop a := by
  unfold substring strSubstring
  split
  · next h =>
    simp only [Option.getD_some]
    have h1 : s.take (min b s.length) = s.take b := by
      rw [List.take_eq_take]
      omega
    rw [h1]
    rcases le_or_lt a s.length with ha | ha
    · rw [min_eq_left ha]
    · rw [List.drop_eq_nil_of_le (by rw [List.length_take]; omega),
          List.drop_eq_nil_of_le (by rw [List.length_take]; omega)]
  · next h =>
    simp only [Option.getD_none]
    rw [List.drop_eq_nil_of_le (by rw [List.length_take]; omega)]

lemma strSubstring_eq_some_of_le (s : List Char) {a b : Nat} (h : a ≤ b) :
    strSubstring s a b = some (substring s a b) := by
  simp only [substring, strSubstring]
  rw [if_pos (show min a s.length ≤ min b s.length by omega)]
  rfl

lemma strSubstring_isSome_of_le (s : List Char) {a b : Nat} (h : a ≤ b) :
    (strSubstring s a b).isSome = true := by
  rw [strSubstring_eq_some_of_le s h]
  rfl

/-! ### Helper lemmas about byte lengths -/

lemma length_le_byteLen (s : List Char) : s.length ≤ byteLen s := by
  unfold byteLen
  have h := List.length_le_sum_of_one_le (s.map Char.utf8Size) (by
    intro i hi
    obtain ⟨c, _, rfl⟩ := List.mem_map.mp hi
    exact Char.utf8Size_pos c)
  simpa using h

lemma take_byteLen (s : List Char) : s.take (byteLen s) = s :=
  List.take_of_length_le (length_le_byteLen s)

lemma drop_take_append_drop (s : List Char) {a b : Nat} (h : a ≤ b) :
    (s.take b).drop a ++ s.drop b = s.drop a := by
  rcases le_or_lt a s.length with ha | ha
  · conv_rhs => rw [← List.take_append_drop b s]
    rw [List.drop_append_eq_append_drop]
    have h0 : a - (s.take b).length = 0 := by rw [List.length_take]; omega
    rw [h0, List.drop_zero]
  · rw [List.drop_eq_nil_of_le (by rw [List.length_take]; omega),
        List.drop_eq_nil_of_le (by omega),
        List.drop_eq_nil_of_le (by omega)]
    rfl

/-! ### Helper lemmas about `parse_boundaries` -/

lemma mem_parse_boundaries_iff (p : Parser) (s : List Char) (i : Nat) :
    i ∈ p.parse_boundaries s ↔ (1 ≤ i ∧ i < s.length) ∧ 0 < p.boundaryScore s i := by
  unfold Parser.parse_boundaries
  simp only [List.mem_filter, List.mem_range'_1, decide_eq_true_eq]
  constructor
  · rintro ⟨⟨h1, h2⟩, h3⟩
    exact ⟨⟨h1, by omega⟩, h3⟩
  · rintro ⟨⟨h1, h2⟩, h3⟩
    exact ⟨⟨h1, by omega⟩, h3⟩

lemma parse_boundaries_sorted (p : Parser) (s : List Char) :
    (p.parse_boundaries s).Pairwise (· < ·) := by
  unfold Parser.parse_boundaries
  apply List.Pairwise.filter
  rw [List.range'_eq_map_range, List.pairwise_map]
  exact (List.pairwise_lt_range _).imp (fun h => by omega)

lemma parse_boundaries_chain_lt (p : Parser) (s : List Char) :
    List.Chain (· < ·) 0 (p.parse_boundaries s) := by
  rw [List.chain_iff_pairwise, List.pairwise_cons]
  refine ⟨?_, parse_boundaries_sorted p s⟩
  intro b hb
  have h := (mem_parse_boundaries_iff p s b).mp hb
  omega

lemma parse_boundaries_chain_le (p : Parser) (s : List Char) :
    List.Chain (· ≤ ·) 0 (p.parse_boundaries s) :=
  (parse_boundaries_chain_lt p s).imp (fun _ _ h => le_of_lt h)

/-! ### Helper lemmas about the chunk loop of `parse` -/

lemma parseChunks_flatten (s : List Char) (bs : List Nat) (start : Nat)
    (h : List.Chain (· ≤ ·) start bs) :
    (parseChunks s start bs).flatten = s.drop start := by
  induction bs generalizing start with
  | nil => simp [parseChunks, substring_eq_drop_take, take_byteLen]
  | cons b bs ih =>
    cases h with
    | cons hb hc =>
      simp only [parseChunks, List.flatten_cons]
      rw [ih b hc, substring_eq_drop_take]
      exact drop_take_append_drop s hb

lemma parseChunks_length (s : List Char) (bs : List Nat) (start : Nat) :
    (parseChunks s start bs).length = bs.length + 1 := by
  induction bs generalizing start with
  | nil => rfl
  | cons b bs ih => simp [parseChunks, ih]

lemma parseChunks_zip (s : List Char) (bs : List Nat) (start : Nat) :
    parseChunks s start bs
      = ((start :: bs).zip (bs ++ [s.length])).map (fun ab => (s.take ab.2).drop ab.1) := by
  induction bs generalizing start with
  | nil => simp [parseChunks, substring_eq_drop_take, take_byteLen, List.take_length]
  | cons b bs ih =>
    simp only [parseChunks, List.cons_append, List.zip_cons_cons, List.map_cons]
    rw [substring_eq_drop_take, ih b]

lemma parseChunks_ne_nil (s : List Char) (bs : List Nat) (start : Nat) :
    parseChunks s start bs ≠ [] := by
  cases bs <;> simp [parseChunks]

lemma parseChunks_getLast? (s : List Char) (bs : List Nat) (start : Nat) :
    (parseChunks s start bs).getLast? = some (s.drop (bs.getLastD start)) := by
  induction bs generalizing start with
  | nil => simp [parseChunks, substring_eq_drop_take, take_byteLen, List.getLastD]
  | cons b bs ih =>
    simp only [parseChunks, List.getLast?_cons, ih b, List.getLastD_cons]
    simp

lemma parseChunks_mem_ne_nil (s : List Char) (bs : List Nat) (start : Nat)
    (hchain : List.Chain (· < ·) start bs) (hmem : ∀ b ∈ bs, b < s.length)
    (hstart : start < s.length) :
    ∀ c ∈ parseChunks s start bs, c ≠ [] := by
  induction bs generalizing start with
  | nil =>
    intro c hc
    simp only [parseChunks, List.mem_singleton] at hc
    subst hc
    rw [substring_eq_drop_take, take_byteLen]
    simp only [ne_eq, List.drop_eq_nil_iff]
    omega
  | cons b bs ih =>
    cases hchain with
    | cons hb hc =>
      intro c hcmem
      simp only [parseChunks, List.mem_cons] at hcmem
      rcases hcmem with rfl | hcmem
      · rw [substring_eq_drop_take]
        intro hnil
        rw [List.drop_eq_nil_iff, List.length_take] at hnil
        have hblen : b < s.length := hmem b (by simp)
        omega
      · exact ih b hc (fun x hx => hmem x (by simp [hx])) (hmem b (by simp)) c hcmem

/-! ### Helper lemmas about the substring requests -/

lemma boundaryRequests_le (i : Nat) : ∀ r ∈ boundaryRequests i, r.1 ≤ r.2 := by
  intro r hr
  simp only [boundaryRequests, List.mem_cons, List.mem_singleton, List.not_mem_nil,
    or_false] at hr
  rcases hr with rfl | rfl | rfl | rfl | rfl | rfl | rfl | rfl | rfl | rfl | rfl | rfl | rfl <;>
    dsimp only <;> omega

lemma parseChunkRequests_isSome (t : List Char) (bs : List Nat) (start : Nat)
    (h : List.Chain (· ≤ ·) start bs) :
    ∀ r ∈ parseChunkRequests t start bs, (strSubstring t r.1 r.2).isSome = true := by
  induction bs generalizing start with
  | nil =>
    intro r hr
    simp only [parseChunkRequests, List.mem_singleton] at hr
    subst hr
    have hb := length_le_byteLen t
    unfold strSubstring
    rw [if_pos (by dsimp only; omega)]
    rfl
  | cons b bs ih =>
    cases h with
    | cons hb hc =>
      intro r hr
      simp only [parseChunkRequests, List.mem_cons] at hr
      rcases hr with rfl | hr
      · exact strSubstring_isSome_of_le t hb
      · exact ih b hc r hr

/-! ### Helper lemmas about `parse` and table lookups -/

lemma parse_eq_parseChunks (p : Parser) (s : List Char) (h : s ≠ []) :
    p.parse s = parseChunks s 0 (p.parse_boundaries s) := by
  unfold Parser.parse
  simp [List.isEmpty_iff, h]

lemma lookup_mem (m : Model) (key : String) (g : List (List Char × Int))
    (h : m.lookup key = some g) : g ∈ m.map Prod.snd := by
  induction m with
  | nil => simp [List.lookup] at h
  | cons kv m ih =>
    obtain ⟨k, v⟩ := kv
    rw [List.lookup] at h
    split at h
    · injection h with h
      subst h
      simp
    · simp only [List.map_cons, List.mem_cons]
      exact Or.inr (ih h)

lemma lookup_empty_none (g : List (List Char × Int))
    (h : ∀ kv ∈ g, kv.1 ≠ ([] : List Char)) :
    g.lookup ([] : List Char) = none := by
  induction g with
  | nil => rfl
  | cons kv g ih =>
    obtain ⟨k, v⟩ := kv
    have hk : k ≠ [] := fun hke => (h (k, v) (by simp)) (by simpa using hke)
    have hbeq : (([] : List Char) == k) = false := by
      rw [beq_eq_false_iff_ne]
      exact fun hh => hk hh.symm
    simp only [List.lookup, hbeq]
    exact ih (fun kv hkv => h kv (by simp [hkv]))

/-- Sanity check for the spec formula of claim C6: `specBaseScore` is the
negated mathematical ceiling of half the weight sum. -/
lemma specBaseScore_eq_neg_ceil_rat (m : Model) :
    specBaseScore m = -⌈(modelSum m : ℚ) / 2⌉ := by
  unfold specBaseScore
  have hq : Int.ediv (-(modelSum m)) 2 = -(modelSum m) / 2 := rfl
  rw [hq, eq_comm, neg_eq_iff_eq_neg, Int.ceil_eq_iff]
  have hb1 : (-2) * ((-(modelSum m)) / 2) - 2 < modelSum m := by omega
  have hb2 : modelSum m ≤ (-2) * ((-(modelSum m)) / 2) := by omega
  have hc1 : (((-2) * ((-(modelSum m)) / 2) - 2 : Int) : ℚ) < ((modelSum m : Int) : ℚ) := by
    exact_mod_cast hb1
  have hc2 : ((modelSum m : Int) : ℚ) ≤ (((-2) * ((-(modelSum m)) / 2) : Int) : ℚ) := by
    exact_mod_cast hb2
  push_cast at hc1 hc2
  constructor
  · push_cast
    linarith
  · push_cast
    linarith

/-! ### Claim theorems -/

/-- Claim C1: for every Parser and every input sentence, concatenating the
chunks returned by `parse`, in order, reproduces the input sentence
exactly: no characters are added, dropped, or reordered. -/
theorem parse_flatten_eq (p : Parser) (s : List Char) : (p.parse s).flatten = s := by
  rcases eq_or_ne s [] with rfl | h
  · rfl
  · rw [parse_eq_parseChunks p s h,
        parseChunks_flatten s _ 0 (parse_boundaries_chain_le p s)]
    exact s.drop_zero

/-- Claim C2: for every Parser and every sentence of at least two
characters, a character index `i` with `1 ≤ i < character_length` is
returned by `parse_boundaries` iff the base score plus the sum of the 13
feature-group lookups at `i` — UW1–UW6 over the single characters at
offsets −3…+2 around `i`, BW1–BW3 over the two-character windows, TW1–TW4
over the three-character windows, a lookup whose group or n-gram is absent
contributing 0 — is strictly greater than 0. -/
theorem mem_parse_boundaries_iff_score_pos (p : Parser) (s : List Char) (i : Nat)
    (_hlen : 2 ≤ s.length) (h1 : 1 ≤ i) (h2 : i < s.length) :
    i ∈ p.parse_boundaries s ↔
      0 < p.base_score
        + p.get_score ("UW1") (substring s (i - 3) (i - 2))
        + p.get_score ("UW2") (substring s (i - 2) (i - 1))
        + p.get_score ("UW3") (substring s (i - 1) i)
        + p.get_score ("UW4") (substring s i (i + 1))
        + p.get_score ("UW5") (substring s (i + 1) (i + 2))
        + p.get_score ("UW6") (substring s (i + 2) (i + 3))
        + p.get_score ("BW1") (substring s (i - 2) i)
        + p.get_score ("BW2") (substring s (i - 1) (i + 1))
        + p.get_score ("BW3") (substring s i (i + 2))
        + p.get_score ("TW1") (substring s (i - 3) i)
        + p.get_score ("TW2") (substring s (i - 2) (i + 1))
        + p.get_score ("TW3") (substring s (i - 1) (i + 2))
        + p.get_score ("TW4") (substring s i (i + 3)) := by
  rw [mem_parse_boundaries_iff]
  unfold Parser.boundaryScore
  exact and_iff_right ⟨h1, h2⟩

/-- Witness for C2: with the table `{UW4: {"b": 10000}}` the index 1 of
`"ab"` is a boundary, by the right-to-left direction of the theorem. -/
theorem mem_parse_boundaries_iff_score_pos_witness :
    1 ∈ (Parser.new [(("UW4"), [([ 'b' ], 10000)])]).parse_boundaries ['a', 'b'] :=
  (mem_parse_boundaries_iff_score_pos (Parser.new [(("UW4"), [([ 'b' ], 10000)])])
    ['a', 'b'] 1 (by decide) (by decide) (by decide)).mpr (by decide)

/-- Claim C3: every position returned by `parse_boundaries` is a character
index with `0 < position < character_length`, the sequence is strictly
increasing, and an input of fewer than two characters yields the empty
sequence. -/
theorem parse_boundaries_position_bounds (p : Parser) (s : List Char) :
    (∀ i ∈ p.parse_boundaries s, 0 < i ∧ i < s.length) ∧
      (p.parse_boundaries s).Pairwise (· < ·) ∧
      (s.length < 2 → p.parse_boundaries s = []) := by
  refine ⟨?_, parse_boundaries_sorted p s, ?_⟩
  · intro i hi
    have h := (mem_parse_boundaries_iff p s i).mp hi
    omega
  · intro hlen
    unfold Parser.parse_boundaries
    have h0 : s.length - 1 = 0 := by omega
    rw [h0]
    rfl

/-- Witness for C3: the one-character sentence has no boundaries, by the
third conjunct of the theorem. -/
theorem parse_boundaries_position_bounds_witness :
    (Parser.new []).parse_boundaries ['a'] = [] :=
  (parse_boundaries_position_bounds (Parser.new []) ['a']).2.2 (by decide)

/-- Claim C4: `Parser.new` is total — construction succeeds for every
weight table, the empty one included — the base score equals
`-((S + 1) / 2)` with truncating (round-toward-zero) signed division,
`S` the sum of every weight in the table, and the base score of the empty
table is 0. -/
theorem base_score_formula :
    (∀ m : Model,
        (Parser.new m).base_score
          = -(Int.tdiv ((m.map (fun g => (g.2.map (fun kv => kv.2)).sum)).sum + 1) 2)) ∧
      (Parser.new []).base_score = 0 := by
  constructor
  · intro m
    have hs : modelSum m = (m.map (fun g => (g.2.map (fun kv => kv.2)).sum)).sum := by
      unfold modelSum
      rw [List.flatMap_def, List.sum_flatten, List.map_map, List.map_map]
      rfl
    show -(Int.tdiv (modelSum m + 1) 2) = _
    rw [hs]
  · decide

/-- Claim C5: `parse` of the empty string is empty; for every non-empty
sentence, `parse` returns exactly one chunk more than `parse_boundaries`
returns boundaries, the chunks are the slices of the sentence between
consecutive boundary positions (from 0 and to the end of the sentence) in
increasing order, and no chunk is empty. -/
theorem parse_slices (p : Parser) (s : List Char) (h : s ≠ []) :
    p.parse [] = [] ∧
      (p.parse s).length = (p.parse_boundaries s).length + 1 ∧
      p.parse s
        = ((0 :: p.parse_boundaries s).zip (p.parse_boundaries s ++ [s.length])).map
            (fun ab => (s.take ab.2).drop ab.1) ∧
      ∀ c ∈ p.parse s, c ≠ [] := by
  refine ⟨rfl, ?_, ?_, ?_⟩
  · rw [parse_eq_parseChunks p s h, parseChunks_length]
  · rw [parse_eq_parseChunks p s h]
    exact parseChunks_zip s _ 0
  · rw [parse_eq_parseChunks p s h]
    refine parseChunks_mem_ne_nil s _ 0 (parse_boundaries_chain_lt p s) ?_ ?_
    · intro b hb
      exact ((mem_parse_boundaries_iff p s b).mp hb).1.2
    · exact List.length_pos.mpr h

/-- Witness for C5 at the empty table and the sentence `"a"`. -/
theorem parse_slices_witness :
    (Parser.new []).parse [] = [] ∧
      ((Parser.new []).parse ['a']).length
          = ((Parser.new []).parse_boundaries ['a']).length + 1 ∧
      (Parser.new []).parse ['a']
        = ((0 :: (Parser.new []).parse_boundaries ['a']).zip
              ((Parser.new []).parse_boundaries ['a'] ++ [(['a'] : List Char).length])).map
            (fun ab => ((['a'] : List Char).take ab.2).drop ab.1) ∧
      ∀ c ∈ (Parser.new []).parse ['a'], c ≠ [] :=
  parse_slices (Parser.new []) ['a'] (by decide)

/-- Counterexample to claim C6: for the table `{UW1: {"a": -2}}` the weight
sum is `-2`; the code computes `-((-2 + 1) / 2) = 0` with truncating
division, while the negated mathematical ceiling is `-⌈-2/2⌉ = 1`
(`specBaseScore` is that ceiling by `specBaseScore_eq_neg_ceil_rat`). -/
theorem base_score_ceil_counterexample :
    (Parser.new [(("UW1"), [([ 'a' ], -2)])]).base_score
      ≠ specBaseScore [(("UW1"), [([ 'a' ], -2)])] := by decide

/-- Claim C6 amended: the base score equals the negated mathematical
ceiling `-⌈S/2⌉` of half the weight sum whenever `S` is nonnegative or
odd; for a negative even sum the code's truncating `-((S + 1) / 2)` is one
less than `-⌈S/2⌉`, so the ceiling reading does not extend to those
tables. -/
theorem base_score_eq_neg_ceil_half (m : Model)
    (h : 0 ≤ modelSum m ∨ modelSum m % 2 ≠ 0) :
    (Parser.new m).base_score = specBaseScore m := by
  show -(Int.tdiv (modelSum m + 1) 2) = specBaseScore m
  unfold specBaseScore
  have he : Int.ediv (-(modelSum m)) 2 = -(modelSum m) / 2 := rfl
  rcases h with h | h
  · rw [he, Int.tdiv_eq_ediv (by omega) (by omega)]
    omega
  · rw [he, Int.tdiv_eq_ediv_of_dvd (by omega)]
    omega

/-- Witness for the amended C6 at a table with odd weight sum 3. -/
theorem base_score_eq_neg_ceil_half_witness :
    (Parser.new [(("UW3"), [([ 'a' ], 3)])]).base_score
      = specBaseScore [(("UW3"), [([ 'a' ], 3)])] :=
  base_score_eq_neg_ceil_half [(("UW3"), [([ 'a' ], 3)])] (by decide)

/-- Counterexample to claim C7: on the three-character string `"abc"` the
request `substring(2, 1)` maps to the byte range `[2, 1)`, and slice
indexing with a start above the end panics in Rust (modelled by `none`):
the helper is not panic-free for arbitrary index pairs. -/
theorem substring_panic_counterexample :
    strSubstring ['a', 'b', 'c'] 2 1 = none := by decide

/-- Claim C7 amended: for every request with `start ≤ end` the substring
helper does not panic and clamps an index at or past the character length
to the end of the string, a request whose clamped start equals its clamped
end yields the empty string, and every request issued during
`parse_boundaries` and `parse` succeeds (their starts never exceed their
ends). -/
theorem substring_clamp_safe (s : List Char) (a b : Nat) (p : Parser) (t : List Char)
    (h : a ≤ b) :
    strSubstring s a b = some ((s.take (min b s.length)).drop (min a s.length)) ∧
      (min a s.length = min b s.length → strSubstring s a b = some []) ∧
      ∀ r ∈ p.parseRequests t, (strSubstring t r.1 r.2).isSome = true := by
  refine ⟨?_, ?_, ?_⟩
  · unfold strSubstring
    rw [if_pos (by omega)]
  · intro hmin
    unfold strSubstring
    rw [if_pos (by omega), hmin]
    congr 1
    exact List.drop_eq_nil_of_le (by rw [List.length_take]; omega)
  · intro r hr
    unfold Parser.parseRequests at hr
    split at hr
    · simp at hr
    · rw [List.mem_append] at hr
      rcases hr with hr | hr
      · unfold parseBoundariesRequests at hr
        obtain ⟨i, _, hri⟩ := List.mem_flatMap.mp hr
        exact strSubstring_isSome_of_le t (boundaryRequests_le i r hri)
      · exact parseChunkRequests_isSome t _ 0 (parse_boundaries_chain_le p t) r hr

/-- Witness for the amended C7 at a concrete clamped request and parser. -/
theorem substring_clamp_safe_witness :
    strSubstring ['a', 'b'] 1 5
        = some (((['a', 'b'] : List Char).take (min 5 (['a', 'b'] : List Char).length)).drop
            (min 1 (['a', 'b'] : List Char).length)) ∧
      (min 1 (['a', 'b'] : List Char).length = min 5 (['a', 'b'] : List Char).length →
        strSubstring ['a', 'b'] 1 5 = some []) ∧
      ∀ r ∈ (Parser.new []).parseRequests ['x', 'y'],
        (strSubstring ['x', 'y'] r.1 r.2).isSome = true :=
  substring_clamp_safe ['a', 'b'] 1 5 (Parser.new []) ['x', 'y'] (by decide)

/-- Counterexample to claim C8: the constructor accepts a table in which a
group maps the empty n-gram, and there the lookup of the empty string hits
the table and returns a nonzero weight. -/
theorem get_score_empty_counterexample :
    (Parser.new [(("UW1"), [([], 5)])]).get_score ("UW1") ([] : List Char) ≠ 0 := by
  decide

/-- Claim C8 amended: for every weight table in which no group maps the
empty n-gram (as holds for every shipped table, whose n-grams have one to
three characters), looking the empty string — the result of every
out-of-range substring request — up in any group returns weight 0. -/
theorem get_score_empty_eq_zero (m : Model) (key : String)
    (h : ∀ g ∈ m, ∀ kv ∈ g.2, kv.1 ≠ ([] : List Char)) :
    (Parser.new m).get_score key ([] : List Char) = 0 := by
  show ((m.lookup key).bind (fun map => map.lookup ([] : List Char))).getD 0 = 0
  cases hl : m.lookup key with
  | none => rfl
  | some g =>
    have hg : g ∈ m.map Prod.snd := lookup_mem m key g hl
    obtain ⟨x, hx, rfl⟩ := List.mem_map.mp hg
    show (x.2.lookup ([] : List Char)).getD 0 = 0
    rw [lookup_empty_none x.2 (h x hx)]
    rfl

/-- Witness for the amended C8 at a shipped-style table. -/
theorem get_score_empty_eq_zero_witness :
    (Parser.new [(("UW4"), [([ 'a' ], 10000)])]).get_score ("BW2") ([] : List Char) = 0 :=
  get_score_empty_eq_zero [(("UW4"), [([ 'a' ], 10000)])] ("BW2") (by decide)

/-- Claim C9: the boundary decision is local — whether `i` (with
`1 ≤ i < character_length`) appears in `parse_boundaries` depends only on
`i`, the character length, and the characters at character indices `i-3`
through `i+2` (clamped to the string): two sentences of equal character
length agreeing on those characters decide `i` identically. -/
theorem parse_boundaries_local (p : Parser) (s t : List Char) (i : Nat)
    (hlen : s.length = t.length) (_h1 : 1 ≤ i) (_h2 : i < s.length)
    (hagree : ∀ j, i - 3 ≤ j → j < i + 3 → s[j]? = t[j]?) :
    (i ∈ p.parse_boundaries s ↔ i ∈ p.parse_boundaries t) := by
  have hsub : ∀ a b : Nat, i - 3 ≤ a → b ≤ i + 3 → substring s a b = substring t a b := by
    intro a b ha hb
    rw [substring_eq_drop_take, substring_eq_drop_take]
    apply List.ext_getElem?
    intro k
    rw [List.getElem?_drop, List.getElem?_drop, List.getElem?_take, List.getElem?_take]
    split
    · next hk => exact hagree (a + k) (by omega) (by omega)
    · rfl
  have hscore : p.boundaryScore s i = p.boundaryScore t i := by
    unfold Parser.boundaryScore
    rw [hsub (i - 3) (i - 2) (by omega) (by omega),
        hsub (i - 2) (i - 1) (by omega) (by omega),
        hsub (i - 1) i (by omega) (by omega),
        hsub i (i + 1) (by omega) (by omega),
        hsub (i + 1) (i + 2) (by omega) (by omega),
        hsub (i + 2) (i + 3) (by omega) (by omega),
        hsub (i - 2) i (by omega) (by omega),
        hsub (i - 1) (i + 1) (by omega) (by omega),
        hsub i (i + 2) (by omega) (by omega),
        hsub (i - 3) i (by omega) (by omega),
        hsub (i - 2) (i + 1) (by omega) (by omega),
        hsub (i - 1) (i + 2) (by omega) (by omega),
        hsub i (i + 3) (by omega) (by omega)]
  rw [mem_parse_boundaries_iff, mem_parse_boundaries_iff, hscore, hlen]

/-- Witness for C9: two sentences differing only outside the six-character
window around position 4 get the same decision there. -/
theorem parse_boundaries_local_witness :
    (4 ∈ (Parser.new [(("UW4"), [([ 'd' ], 7)])]).parse_boundaries
        ['p', 'a', 'b', 'c', 'd', 'e', 'f', 'q'] ↔
      4 ∈ (Parser.new [(("UW4"), [([ 'd' ], 7)])]).parse_boundaries
        ['r', 'a', 'b', 'c', 'd', 'e', 'f', 'v']) :=
  parse_boundaries_local (Parser.new [(("UW4"), [([ 'd' ], 7)])])
    ['p', 'a', 'b', 'c', 'd', 'e', 'f', 'q'] ['r', 'a', 'b', 'c', 'd', 'e', 'f', 'v'] 4
    (by decide) (by decide) (by decide)
    (by
      intro j hj1 hj2
      interval_cases j <;> rfl)

/-- Claim C10: for every Parser and non-empty sentence the final chunk of
`parse` equals exactly the suffix of the sentence from the last boundary
(from the start when there is none) to the end: the code passes the byte
length, not the character length, as the final end index, and the clamping
of any index at or past the character count makes the result the true
character suffix even for multi-byte sentences. -/
theorem parse_last_chunk (p : Parser) (s : List Char) (h : s ≠ []) :
    (p.parse s).getLast? = some (s.drop ((p.parse_boundaries s).getLastD 0)) := by
  rw [parse_eq_parseChunks p s h]
  exact parseChunks_getLast? s _ 0

/-- Witness for C10 on a sentence of three-byte characters with one
boundary. -/
theorem parse_last_chunk_witness :
    ((Parser.new [(("UW4"), [([ 'い' ], 10000)])]).parse ['あ', 'い', 'う']).getLast?
      = some ((['あ', 'い', 'う'] : List Char).drop
          (((Parser.new [(("UW4"), [([ 'い' ], 10000)])]).parse_boundaries
              ['あ', 'い', 'う']).getLastD 0)) :=
  parse_last_chunk (Parser.new [(("UW4"), [([ 'い' ], 10000)])]) ['あ', 'い', 'う']
    (by decide)

end BudouX
